import Mathlib

/-!
Verification of the web-firmware-installer widget (`base_installer.js`,
`cpinstaller.js`) against its natural-language specification.

The JavaScript sources are shallowly embedded: JS strings are Lean `String`s
(compared as lists of characters, matching the ECMAScript code-unit
comparison for the ASCII data handled here), JS `undefined`/`null` results
are `Option.none`, and the stateful handlers are modelled as pure functions
from their inputs (including the relevant fields of the widget instance) to
their outputs together with the observable effects the claims mention
(error dialogs shown, log notices, invoked step indices, network fetches).
-/

/-! ### ECMAScript primitive semantics used by the sources -/

/-- ECMAScript `<` on two strings: lexicographic comparison by code unit
(for the ASCII data in this repository, by character). -/
def lexLt : List Char → List Char → Bool
  | [], [] => false
  | [], _ :: _ => true
  | _ :: _, [] => false
  | a :: as, b :: bs => if a < b then true else if b < a then false else lexLt as bs

/-- The ten characters matched by the regex class `\d`. -/
def isDigitCh (c : Char) : Bool :=
  c == '0' || c == '1' || c == '2' || c == '3' || c == '4' ||
  c == '5' || c == '6' || c == '7' || c == '8' || c == '9'

/-- The characters matched by the regex class `[a-z]`. -/
def isLowerCh (c : Char) : Bool :=
  ('a' ≤ c) && (c ≤ 'z')

/-- ECMAScript `ToNumber` restricted to the all-digit strings produced by the
`\d+` capture groups of `parseVersion` (the only strings the sources ever
coerce to numbers). -/
def digitsToNat (s : List Char) : Nat :=
  s.foldl (fun acc c => acc * 10 + (c.toNat - 48)) 0

/-- A JS value that is either a number or a string — the two shapes taken by
the `suffixVersion` field of a parsed version (`0` for an implicit stable
release, a digit string captured by the regex otherwise). -/
inductive JSVal where
  | num (n : Nat)
  | str (s : List Char)
deriving DecidableEq

/-- ECMAScript `a < b` on the values occurring in the version comparator:
string/string compares lexicographically, and a mix of string and number
coerces the string with `ToNumber` (always a digit string here, never NaN). -/
def jsValLt : JSVal → JSVal → Bool
  | .str a, .str b => lexLt a b
  | .num a, .num b => decide (a < b)
  | .num a, .str s => decide (a < digitsToNat s)
  | .str s, .num b => decide (digitsToNat s < b)

/-- ECMAScript `a > b` on the same values (mirror of `jsValLt`). -/
def jsValGt : JSVal → JSVal → Bool
  | .str a, .str b => lexLt b a
  | .num a, .num b => decide (b < a)
  | .num a, .str s => decide (digitsToNat s < a)
  | .str s, .num b => decide (b < digitsToNat s)

/-- ECMAScript truthiness of a nullable string: `null`/`undefined` and the
empty string are falsy. -/
def jsFalsyOptStr : Option String → Bool
  | none => true
  | some s => s == ""

/-- Helper for `String.prototype.includes`: does `hay` start with `pat`? -/
def listStartsWith : List Char → List Char → Bool
  | [], _ => true
  | _ :: _, [] => false
  | a :: as, b :: bs => (a == b) && listStartsWith as bs

/-- Helper for `String.prototype.includes`: does `pat` occur contiguously in
`hay`? -/
def listContains (pat : List Char) : List Char → Bool
  | [] => listStartsWith pat []
  | c :: t => listStartsWith pat (c :: t) || listContains pat t

/-- ECMAScript `s.includes(search)`. -/
def jsIncludes (s search : String) : Bool :=
  listContains search.data s.data

/-- The ECMAScript comma operator: evaluates both operands, yields the second. -/
def commaExpr (a b : String) : String := b

/-! ### Order theory for `lexLt` -/

theorem lexLt_asymm : ∀ {a b : List Char}, lexLt a b = true → lexLt b a = true → False
  | [], [], h, _ => by simp [lexLt] at h
  | [], _ :: _, _, h' => by simp [lexLt] at h'
  | _ :: _, [], h, _ => by simp [lexLt] at h
  | a :: as, b :: bs, h, h' => by
    by_cases hab : a < b
    · have hba : ¬ b < a := lt_asymm hab
      simp [lexLt, hab, hba] at h'
    · by_cases hba : b < a
      · simp [lexLt, hab, hba] at h
      · simp only [lexLt, if_neg hab, if_neg hba] at h
        simp only [lexLt, if_neg hba, if_neg hab] at h'
        exact lexLt_asymm h h'

theorem lexLt_eq_of_not : ∀ {a b : List Char}, lexLt a b = false → lexLt b a = false → a = b
  | [], [], _, _ => rfl
  | [], _ :: _, h, _ => by simp [lexLt] at h
  | _ :: _, [], _, h' => by simp [lexLt] at h'
  | a :: as, b :: bs, h, h' => by
    by_cases hab : a < b
    · simp [lexLt, hab] at h
    · by_cases hba : b < a
      · simp [lexLt, hba, hab] at h'
      · simp only [lexLt, if_neg hab, if_neg hba] at h
        simp only [lexLt, if_neg hba, if_neg hab] at h'
        have : a = b := le_antisymm (not_lt.mp hba) (not_lt.mp hab)
        rw [this, lexLt_eq_of_not h h']

theorem lexLt_trans : ∀ {a b c : List Char},
    lexLt a b = true → lexLt b c = true → lexLt a c = true
  | [], [], _, h, _ => by simp [lexLt] at h
  | [], _ :: _, [], _, h' => by simp [lexLt] at h'
  | [], _ :: _, _ :: _, _, _ => by simp [lexLt]
  | _ :: _, [], _, h, _ => by simp [lexLt] at h
  | _ :: _, _ :: _, [], _, h' => by simp [lexLt] at h'
  | a :: as, b :: bs, c :: cs, h, h' => by
    by_cases hab : a < b
    · by_cases hbc : b < c
      · have : a < c := lt_trans hab hbc
        simp [lexLt, this]
      · by_cases hcb : c < b
        · simp [lexLt, hbc, hcb] at h'
        · have : b = c := le_antisymm (not_lt.mp hcb) (not_lt.mp hbc)
          subst this
          simp [lexLt, hab]
    · by_cases hba : b < a
      · simp [lexLt, hab, hba] at h
      · have hab' : a = b := le_antisymm (not_lt.mp hba) (not_lt.mp hab)
        subst hab'
        simp only [lexLt, if_neg hab, if_neg hba] at h
        by_cases hac : a < c
        · simp [lexLt, hac]
        · by_cases hca : c < a
          · simp [lexLt, hac, hca] at h'
          · simp only [lexLt, if_neg hac, if_neg hca] at h' ⊢
            exact lexLt_trans h h'

/-! ### `cpinstaller.js`: `parseVersion` (lines 70–87) -/

/-- The parsed-version object built by `parseVersion`. The regex capture
groups are strings; an implicit stable release gets the string `"stable"`
and the number `0` (source lines 82–83), so `suffixVersion` is the only
field that can be either a string or a number. -/
structure VersionInfo where
  major : List Char
  minor : List Char
  patch : List Char
  suffix : List Char
  suffixVersion : JSVal
deriving DecidableEq

/-- Splits a maximal leading `\d+` run (the greedy digit capture). -/
def spanDigits (l : List Char) : List Char × List Char :=
  (l.takeWhile isDigitCh, l.dropWhile isDigitCh)

/-- Splits a maximal leading `[a-z]+` run (the greedy suffix capture). -/
def spanLower (l : List Char) : List Char × List Char :=
  (l.takeWhile isLowerCh, l.dropWhile isLowerCh)

/-- JS `parseVersion(version)` (cpinstaller.js lines 70–87): matches
`(\d+)\.(\d+)\.(\d+)(?:-([a-z]+)\.(\d+))?` against the version string and
returns the object `{major, minor, patch, suffix, suffixVersion}`; without
a suffix group, `suffix` is `"stable"` and `suffixVersion` the number `0`.
The regex is embedded as a parser for strings consisting exactly of a
match (the shape of every version string the claims quantify over); any
other string yields `none`, standing for the empty object the source
returns when the regex fails. -/
def parseVersion (version : String) : Option VersionInfo :=
  match spanDigits version.data with
  | (major, '.' :: rest1) =>
    if major.isEmpty then none else
    match spanDigits rest1 with
    | (minor, '.' :: rest2) =>
      if minor.isEmpty then none else
      match spanDigits rest2 with
      | (patch, rest3) =>
        if patch.isEmpty then none else
        match rest3 with
        | [] => some ⟨major, minor, patch, "stable".data, .num 0⟩
        | '-' :: rest4 =>
          match spanLower rest4 with
          | (suffix, '.' :: rest5) =>
            if suffix.isEmpty then none else
            match spanDigits rest5 with
            | (suffixVersion, []) =>
              if suffixVersion.isEmpty then none
              else some ⟨major, minor, patch, suffix, .str suffixVersion⟩
            | _ => none
          | _ => none
        | _ => none
    | _ => none
  | _ => none

/-! ### `cpinstaller.js`: `sortReleases` (lines 89–106) -/

/-- A release record from the board-definition catalog. -/
structure Release where
  version : String
  uf2file : Option String
  binfile : Option String
deriving DecidableEq

/-- The comparator loop body: walk the field values in `sortHieratchy` order
(source spelling), returning `-1` on the first `<` field, `1` on the first
`>` field, `0` if every field ties. -/
def cmpFieldList : List JSVal → List JSVal → Int
  | a :: as, b :: bs =>
    if jsValLt a b then -1 else if jsValGt a b then 1 else cmpFieldList as bs
  | _, _ => 0

/-- The field values of a parsed version in `sortHieratchy` order
`["major", "minor", "patch", "suffix", "suffixVersion"]`. -/
def fieldVals (vi : VersionInfo) : List JSVal :=
  [.str vi.major, .str vi.minor, .str vi.patch, .str vi.suffix, vi.suffixVersion]

/-- The `sortReleases` comparator (source lines 92–102): parse both versions,
then compare field-by-field. When a version fails to parse the source
compares against an empty object, whose `undefined` fields make every
`<`/`>` test false, so the comparator returns `0`. -/
def releaseCompare (a b : Release) : Int :=
  match parseVersion a.version, parseVersion b.version with
  | some x, some y => cmpFieldList (fieldVals x) (fieldVals y)
  | _, _ => 0

/-- Comparator result `≤ 0`: element `a` stays before `b`. -/
def releaseLe (a b : Release) : Bool :=
  decide (releaseCompare a b ≤ 0)

/-- Stable insertion used to model `Array.prototype.sort`. -/
def orderedInsert (le : α → α → Bool) (x : α) : List α → List α
  | [] => [x]
  | y :: ys => if le x y then x :: y :: ys else y :: orderedInsert le x ys

/-- ECMAScript `Array.prototype.sort(comparator)` is required to be stable;
it is modelled as a stable insertion sort, which produces the unique stable
sorted permutation whenever the comparator is consistent. -/
def stableSort (le : α → α → Bool) (l : List α) : List α :=
  l.foldr (orderedInsert le) []

/-- JS `sortReleases(releases)` (source lines 89–106). -/
def sortReleases (releases : List Release) : List Release :=
  stableSort releaseLe releases

/-! ### Order theory for the `sortReleases` comparator -/

/-- Canonical decimal numeral: nonempty, all digits, no leading zero
(except the numeral `0` itself). Every component of a version string of the
form `major.minor.patch[-suffix.suffixVersion]` with numeric fields rendered
canonically satisfies this. -/
def canonicalDigits : List Char → Bool
  | [] => false
  | c :: cs => isDigitCh c && cs.all isDigitCh && (c != '0' || cs.isEmpty)

/-- The `suffixVersion` values with consistent comparison behavior: the
number `0` (implicit stable) or a canonical digit string. -/
def svCanonical : JSVal → Bool
  | .num n => n == 0
  | .str s => canonicalDigits s

/-- String key standing for a comparator value: the number `0` and the
numeral `"0"` compare identically against every canonical digit string. -/
def svKey : JSVal → List Char
  | .num _ => ['0']
  | .str s => s

/-- Pairs of values on which the JS comparison agrees with the key order:
two strings, or two well-behaved `suffixVersion` values. -/
def goodPair (x y : JSVal) : Prop :=
  (∃ s t, x = .str s ∧ y = .str t) ∨ (svCanonical x = true ∧ svCanonical y = true)

theorem goodPair_symm {x y : JSVal} (h : goodPair x y) : goodPair y x := by
  rcases h with ⟨s, t, hx, hy⟩ | ⟨hx, hy⟩
  · exact Or.inl ⟨t, s, hy, hx⟩
  · exact Or.inr ⟨hy, hx⟩

theorem digits_foldl_ge : ∀ (cs : List Char) (acc : Nat),
    acc ≤ cs.foldl (fun a c => a * 10 + (c.toNat - 48)) acc
  | [], acc => le_refl acc
  | c :: cs, acc => by
    have h1 : acc ≤ acc * 10 + (c.toNat - 48) := by omega
    exact le_trans h1 (digits_foldl_ge cs (acc * 10 + (c.toNat - 48)))

theorem bool_eq_false {b : Bool} (h : ¬ b = true) : b = false := by
  cases b
  · rfl
  · exact absurd rfl h

theorem isDigitCh_cases {c : Char} (h : isDigitCh c = true) :
    c = '0' ∨ c = '1' ∨ c = '2' ∨ c = '3' ∨ c = '4' ∨
    c = '5' ∨ c = '6' ∨ c = '7' ∨ c = '8' ∨ c = '9' := by
  simp [isDigitCh] at h
  tauto

theorem digitsToNat_pos {c : Char} {cs : List Char}
    (hd : isDigitCh c = true) (hc : c ≠ '0') : 0 < digitsToNat (c :: cs) := by
  have h1 : 1 ≤ c.toNat - 48 := by
    rcases isDigitCh_cases hd with rfl | rfl | rfl | rfl | rfl | rfl | rfl | rfl | rfl | rfl
    · exact absurd rfl hc
    all_goals decide
  have h2 : digitsToNat (c :: cs)
      = cs.foldl (fun a ch => a * 10 + (ch.toNat - 48)) (0 * 10 + (c.toNat - 48)) := rfl
  have h3 := digits_foldl_ge cs (0 * 10 + (c.toNat - 48))
  omega

theorem zero_key_lexLt {s : List Char} (h : canonicalDigits s = true) :
    lexLt ['0'] s = decide (0 < digitsToNat s) := by
  match s with
  | [] => simp [canonicalDigits] at h
  | c :: cs =>
    simp only [canonicalDigits, Bool.and_eq_true, Bool.or_eq_true] at h
    obtain ⟨⟨hd, _⟩, hz⟩ := h
    by_cases hc : c = '0'
    · subst hc
      have : cs = [] := by
        rcases hz with h' | h'
        · simp at h'
        · exact List.isEmpty_iff.mp h'
      subst this
      decide
    · have hpos : 0 < digitsToNat (c :: cs) := digitsToNat_pos hd hc
      have hlt : '0' < c := by
        rcases isDigitCh_cases hd with rfl | rfl | rfl | rfl | rfl | rfl | rfl | rfl | rfl | rfl
        · exact absurd rfl hc
        all_goals decide
      simp [lexLt, hlt, hpos]

theorem key_lexLt_zero {s : List Char} (h : canonicalDigits s = true) :
    lexLt s ['0'] = false := by
  match s with
  | [] => simp [canonicalDigits] at h
  | c :: cs =>
    simp only [canonicalDigits, Bool.and_eq_true, Bool.or_eq_true] at h
    obtain ⟨⟨hd, _⟩, hz⟩ := h
    by_cases hc : c = '0'
    · subst hc
      have : cs = [] := by
        rcases hz with h' | h'
        · simp at h'
        · exact List.isEmpty_iff.mp h'
      subst this
      decide
    · have hlt : '0' < c := by
        rcases isDigitCh_cases hd with rfl | rfl | rfl | rfl | rfl | rfl | rfl | rfl | rfl | rfl
        · exact absurd rfl hc
        all_goals decide
      have h1 : ¬ c < '0' := lt_asymm hlt
      simp [lexLt, h1, hlt]

theorem goodPair_lt {x y : JSVal} (h : goodPair x y) :
    jsValLt x y = lexLt (svKey x) (svKey y) := by
  rcases h with ⟨s, t, rfl, rfl⟩ | ⟨hx, hy⟩
  · rfl
  · match x, y with
    | .num a, .num b =>
      have ha : a = 0 := by simpa [svCanonical] using hx
      have hb : b = 0 := by simpa [svCanonical] using hy
      subst ha; subst hb; decide
    | .num a, .str t =>
      have ha : a = 0 := by simpa [svCanonical] using hx
      have ht : canonicalDigits t = true := by simpa [svCanonical] using hy
      subst ha
      simpa [jsValLt, svKey] using (zero_key_lexLt ht).symm
    | .str s, .num b =>
      have hb : b = 0 := by simpa [svCanonical] using hy
      have hs : canonicalDigits s = true := by simpa [svCanonical] using hx
      subst hb
      simp [jsValLt, svKey, key_lexLt_zero hs]
    | .str s, .str t => rfl

theorem jsValGt_eq (x y : JSVal) : jsValGt x y = jsValLt y x := by
  cases x <;> cases y <;> rfl

theorem jsValLt_asymm {x y : JSVal} (h : jsValLt x y = true) (h' : jsValLt y x = true) :
    False := by
  match x, y with
  | .str a, .str b => exact lexLt_asymm h h'
  | .num a, .num b => simp [jsValLt] at h h'; omega
  | .num a, .str s => simp [jsValLt] at h h'; omega
  | .str s, .num b => simp [jsValLt] at h h'; omega

/-- Comparator walk on the string keys. -/
def keyCmp : List (List Char) → List (List Char) → Int
  | a :: as, b :: bs =>
    if lexLt a b then -1 else if lexLt b a then 1 else keyCmp as bs
  | _, _ => 0

theorem cmpFieldList_eq_keyCmp : ∀ {as bs : List JSVal}, List.Forall₂ goodPair as bs →
    cmpFieldList as bs = keyCmp (as.map svKey) (bs.map svKey)
  | [], [], _ => rfl
  | _, _, List.Forall₂.cons h htail => by
    rename_i x y as bs
    have hlt : jsValLt x y = lexLt (svKey x) (svKey y) := goodPair_lt h
    have hgt : jsValGt x y = lexLt (svKey y) (svKey x) := by
      rw [jsValGt_eq]; exact goodPair_lt (goodPair_symm h)
    simp only [cmpFieldList, List.map, keyCmp, hlt, hgt,
      cmpFieldList_eq_keyCmp htail]

theorem cmpFieldList_swap : ∀ (as bs : List JSVal), cmpFieldList bs as = -cmpFieldList as bs
  | [], [] => rfl
  | [], _ :: _ => rfl
  | _ :: _, [] => rfl
  | a :: as, b :: bs => by
    by_cases hab : jsValLt a b = true
    · have hba : jsValLt b a = false := bool_eq_false fun h => jsValLt_asymm hab h
      simp [cmpFieldList, hab, hba, jsValGt_eq]
    · have hab' : jsValLt a b = false := bool_eq_false hab
      by_cases hba : jsValLt b a = true
      · simp [cmpFieldList, hab', hba, jsValGt_eq]
      · have hba' : jsValLt b a = false := bool_eq_false hba
        simp [cmpFieldList, hab', hba', jsValGt_eq, cmpFieldList_swap as bs]

theorem keyCmp_trans_le : ∀ {as bs cs : List (List Char)},
    as.length = bs.length → bs.length = cs.length →
    keyCmp as bs ≤ 0 → keyCmp bs cs ≤ 0 → keyCmp as cs ≤ 0
  | [], [], [], _, _, _, _ => by simp [keyCmp]
  | a :: as, b :: bs, c :: cs, hl1, hl2, h1, h2 => by
    simp only [List.length_cons, Nat.add_right_cancel_iff] at hl1 hl2
    by_cases hab : lexLt a b = true
    · by_cases hbc : lexLt b c = true
      · have : lexLt a c = true := lexLt_trans hab hbc
        simp [keyCmp, this]
      · by_cases hcb : lexLt c b = true
        · have hbc' : lexLt b c = false := bool_eq_false hbc
          rw [keyCmp, if_neg (by simp [hbc']), if_pos hcb] at h2
          omega
        · have hbc' : lexLt b c = false := bool_eq_false hbc
          have hcb' : lexLt c b = false := bool_eq_false hcb
          have : b = c := lexLt_eq_of_not hbc' hcb'
          subst this
          simp [keyCmp, hab]
    · by_cases hba : lexLt b a = true
      · have hab' : lexLt a b = false := bool_eq_false hab
        rw [keyCmp, if_neg (by simp [hab']), if_pos hba] at h1
        omega
      · have hab' : lexLt a b = false := bool_eq_false hab
        have hba' : lexLt b a = false := bool_eq_false hba
        have heq : a = b := lexLt_eq_of_not hab' hba'
        subst heq
        rw [keyCmp, if_neg (by simp [hab']), if_neg (by simp [hba'])] at h1
        by_cases hac : lexLt a c = true
        · simp [keyCmp, hac]
        · by_cases hca : lexLt c a = true
          · have hac' : lexLt a c = false := bool_eq_false hac
            rw [keyCmp, if_neg (by simp [hac']), if_pos hca] at h2
            omega
          · have hac' : lexLt a c = false := bool_eq_false hac
            have hca' : lexLt c a = false := bool_eq_false hca
            rw [keyCmp, if_neg (by simp [hac']), if_neg (by simp [hca'])] at h2
            rw [keyCmp, if_neg (by simp [hac']), if_neg (by simp [hca'])]
            exact keyCmp_trans_le hl1 hl2 h1 h2
  | [], [], _ :: _, _, hl2, _, _ => by simp at hl2
  | [], _ :: _, _, hl1, _, _, _ => by simp at hl1
  | _ :: _, [], _, hl1, _, _, _ => by simp at hl1
  | _ :: _, _ :: _, [], _, hl2, _, _ => by simp at hl2

/-- A release whose version string parses and whose `suffixVersion` is
well-behaved (the implicit number `0` or a canonical digit numeral, which
is what the regex produces for every canonically rendered version). -/
def releaseWF (r : Release) : Bool :=
  match parseVersion r.version with
  | some vi => svCanonical vi.suffixVersion
  | none => false

theorem releaseCompare_swap (a b : Release) : releaseCompare b a = -releaseCompare a b := by
  unfold releaseCompare
  cases parseVersion a.version <;> cases parseVersion b.version
  · simp
  · simp
  · simp
  · exact cmpFieldList_swap _ _

theorem releaseLe_total (a b : Release) : (releaseLe a b || releaseLe b a) = true := by
  have h := releaseCompare_swap a b
  simp only [releaseLe, Bool.or_eq_true, decide_eq_true_eq]
  omega

theorem fieldVals_good {x y : VersionInfo}
    (hx : svCanonical x.suffixVersion = true) (hy : svCanonical y.suffixVersion = true) :
    List.Forall₂ goodPair (fieldVals x) (fieldVals y) :=
  .cons (Or.inl ⟨_, _, rfl, rfl⟩)
    (.cons (Or.inl ⟨_, _, rfl, rfl⟩)
      (.cons (Or.inl ⟨_, _, rfl, rfl⟩)
        (.cons (Or.inl ⟨_, _, rfl, rfl⟩)
          (.cons (Or.inr ⟨hx, hy⟩) .nil))))

theorem releaseLe_trans_wf {a b c : Release}
    (ha : releaseWF a = true) (hb : releaseWF b = true) (hc : releaseWF c = true)
    (h1 : releaseLe a b = true) (h2 : releaseLe b c = true) : releaseLe a c = true := by
  unfold releaseWF at ha hb hc
  cases hpa : parseVersion a.version with
  | none => rw [hpa] at ha; exact absurd ha (by simp)
  | some x =>
  cases hpb : parseVersion b.version with
  | none => rw [hpb] at hb; exact absurd hb (by simp)
  | some y =>
  cases hpc : parseVersion c.version with
  | none => rw [hpc] at hc; exact absurd hc (by simp)
  | some z =>
  rw [hpa] at ha; rw [hpb] at hb; rw [hpc] at hc
  simp only [releaseLe, releaseCompare, hpa, hpb, hpc, decide_eq_true_eq] at h1 h2 ⊢
  rw [cmpFieldList_eq_keyCmp (fieldVals_good ha hb)] at h1
  rw [cmpFieldList_eq_keyCmp (fieldVals_good hb hc)] at h2
  rw [cmpFieldList_eq_keyCmp (fieldVals_good ha hc)]
  exact keyCmp_trans_le (by simp [fieldVals]) (by simp [fieldVals]) h1 h2

/-! ### Stable-sort theory -/

theorem orderedInsert_perm (le : α → α → Bool) (x : α) :
    ∀ (l : List α), (orderedInsert le x l).Perm (x :: l)
  | [] => List.Perm.refl _
  | y :: ys => by
    by_cases h : le x y = true
    · rw [orderedInsert, if_pos h]
    · rw [orderedInsert, if_neg (by simp [bool_eq_false h])]
      exact ((orderedInsert_perm le x ys).cons y).trans (List.Perm.swap x y ys)

theorem stableSort_perm (le : α → α → Bool) : ∀ (l : List α), (stableSort le l).Perm l
  | [] => List.Perm.refl _
  | x :: l =>
    (orderedInsert_perm le x (stableSort le l)).trans ((stableSort_perm le l).cons x)

theorem orderedInsert_sorted (le : α → α → Bool) (S : α → Prop)
    (htot : ∀ a b, S a → S b → (le a b || le b a) = true)
    (htr : ∀ a b c, S a → S b → S c →
      le a b = true → le b c = true → le a c = true)
    {x : α} (hx : S x) :
    ∀ {l : List α}, (∀ y ∈ l, S y) →
      l.Pairwise (fun a b => le a b = true) →
      (orderedInsert le x l).Pairwise (fun a b => le a b = true)
  | [], _, _ => by simp [orderedInsert]
  | y :: ys, hl, hsort => by
    rcases List.pairwise_cons.mp hsort with ⟨hyz, htail⟩
    by_cases h : le x y = true
    · rw [orderedInsert, if_pos h]
      refine List.pairwise_cons.mpr ⟨?_, hsort⟩
      intro z hz
      rcases List.mem_cons.mp hz with rfl | hz'
      · exact h
      · exact htr x y z hx (hl y (List.mem_cons_self y ys))
          (hl z (List.mem_cons_of_mem y hz')) h (hyz z hz')
    · rw [orderedInsert, if_neg (by simp [bool_eq_false h])]
      have hyx : le y x = true := by
        have := htot x y hx (hl y (List.mem_cons_self y ys))
        rcases Bool.or_eq_true_iff.mp this with h' | h'
        · exact absurd h' h
        · exact h'
      refine List.pairwise_cons.mpr ⟨?_, ?_⟩
      · intro z hz
        rcases List.mem_cons.mp ((orderedInsert_perm le x ys).mem_iff.mp hz) with rfl | hz'
        · exact hyx
        · exact hyz z hz'
      · exact orderedInsert_sorted le S htot htr hx
          (fun z hz => hl z (List.mem_cons_of_mem y hz)) htail

theorem stableSort_sorted (le : α → α → Bool) (S : α → Prop)
    (htot : ∀ a b, S a → S b → (le a b || le b a) = true)
    (htr : ∀ a b c, S a → S b → S c →
      le a b = true → le b c = true → le a c = true) :
    ∀ {l : List α}, (∀ y ∈ l, S y) →
      (stableSort le l).Pairwise (fun a b => le a b = true)
  | [], _ => by simp [stableSort]
  | x :: l, hl =>
    orderedInsert_sorted le S htot htr (hl x (List.mem_cons_self x l))
      (fun z hz => hl z (List.mem_cons_of_mem x ((stableSort_perm le l).mem_iff.mp hz)))
      (stableSort_sorted le S htot htr (fun z hz => hl z (List.mem_cons_of_mem x hz)))

theorem self_sublist_orderedInsert (le : α → α → Bool) (x : α) :
    ∀ (l : List α), l.Sublist (orderedInsert le x l)
  | [] => List.nil_sublist _
  | y :: ys => by
    by_cases h : le x y = true
    · rw [orderedInsert, if_pos h]
      exact List.Sublist.cons x (List.Sublist.refl _)
    · rw [orderedInsert, if_neg (by simp [bool_eq_false h])]
      exact List.Sublist.cons₂ y (self_sublist_orderedInsert le x ys)

theorem cons_sublist_orderedInsert {le : α → α → Bool} {x : α} :
    ∀ {m c : List α}, c.Sublist m → (∀ y ∈ c, le x y = true) →
      (x :: c).Sublist (orderedInsert le x m)
  | [], c, hsub, _ => by
    rw [List.sublist_nil.mp hsub]
    exact List.Sublist.refl [x]
  | y :: ys, c, hsub, hle => by
    by_cases h : le x y = true
    · rw [orderedInsert, if_pos h]
      exact List.Sublist.cons₂ x hsub
    · rw [orderedInsert, if_neg (by simp [bool_eq_false h])]
      cases hsub with
      | cons _ htail => exact List.Sublist.cons y (cons_sublist_orderedInsert htail hle)
      | cons₂ _ htail =>
        exact absurd (hle y (List.mem_cons_self y _)) (by simpa using h)

theorem sublist_stableSort {le : α → α → Bool} :
    ∀ {l c : List α}, c.Pairwise (fun a b => le a b = true) → c.Sublist l →
      c.Sublist (stableSort le l)
  | [], c, _, hsub => by
    rw [List.sublist_nil.mp hsub]
    exact List.nil_sublist _
  | x :: l, c, hpair, hsub => by
    cases hsub with
    | cons _ htail =>
      exact (sublist_stableSort hpair htail).trans (self_sublist_orderedInsert le x _)
    | cons₂ _ htail =>
      rcases List.pairwise_cons.mp hpair with ⟨hxc, hpair'⟩
      exact cons_sublist_orderedInsert (sublist_stableSort hpair' htail) hxc

/-! ### The claim-side version order (used to compare code against spec) -/

/-- The numeric value of the `suffixVersion` field as the claim reads it. -/
def svNum : JSVal → Nat
  | .num n => n
  | .str s => digitsToNat s

/-- The claim's sort key: `(major, minor, patch, suffix, suffixVersion)` with
the three leading components and `suffixVersion` read as numbers (the claim
writes versions as `major.minor.patch` with `suffixVersion 0` for stable). -/
def specTuple (r : Release) : Option (Nat × Nat × Nat × List Char × Nat) :=
  (parseVersion r.version).map fun vi =>
    (digitsToNat vi.major, digitsToNat vi.minor, digitsToNat vi.patch,
      vi.suffix, svNum vi.suffixVersion)

/-- The claim's field-tuple order, first mismatching field deciding. -/
def specTupleLe : (Nat × Nat × Nat × List Char × Nat) →
    (Nat × Nat × Nat × List Char × Nat) → Bool
  | (m1, n1, p1, s1, v1), (m2, n2, p2, s2, v2) =>
    decide (m1 < m2) || (m1 == m2 &&
      (decide (n1 < n2) || (n1 == n2 &&
        (decide (p1 < p2) || (p1 == p2 &&
          (lexLt s1 s2 || (s1 == s2 && decide (v1 ≤ v2))))))))

/-- Non-decreasing adjacent pairs under the claim's field-tuple order. -/
def specSorted : List Release → Bool
  | a :: b :: t =>
    (match specTuple a, specTuple b with
     | some x, some y => specTupleLe x y
     | _, _ => false) && specSorted (b :: t)
  | _ => true

/-! ### `cpinstaller.js`: `loadBoard` (lines 133–182) -/

/-- A board definition from the catalog. -/
structure BoardDef where
  chipfamily : String
  name : Option String
  bootloader : Option String
  releases : List Release
deriving DecidableEq

/-- The release-selection portion of `loadBoard(boardId)` (cpinstaller.js
lines 133–164): if the board id is a key of the catalog, sort its releases;
when a version was requested (a truthy `this.releaseVersion`, modelled
`some v`), linear-scan the sorted list for an exact `==` match; if no match
was found or no version requested, take the last element of the sorted
list when `DEFAULT_RELEASE_LATEST` is true, the first when false (`none`
stands for the `undefined` of an out-of-bounds index on an empty list).
`DEFAULT_RELEASE_LATEST` is the compile-time constant `false` at source
line 27; it is kept as the parameter `defaultLatest` so both policies can
be stated. -/
def loadBoard (boardDefs : List (String × BoardDef)) (boardId : String)
    (releaseVersion : Option String) (defaultLatest : Bool) : Option Release :=
  match boardDefs.lookup boardId with
  | none => none
  | some boardDef =>
    let sortedReleases := sortReleases boardDef.releases
    let found : Option Release :=
      match releaseVersion with
      | some v => sortedReleases.find? (fun release => release.version == v)
      | none => none
    match found with
    | some releaseInfo => some releaseInfo
    | none => if defaultLatest then sortedReleases.getLast? else sortedReleases.head?

/-- JS `DEFAULT_RELEASE_LATEST` (cpinstaller.js line 27). -/
def DEFAULT_RELEASE_LATEST : Bool := false

/-- The board of the claim's end-to-end scenario, with releases
`["8.2.0", "9.0.0-beta.1"]`. -/
def featherBoard : BoardDef :=
  ⟨"esp32s2", none, none, [⟨"8.2.0", none, none⟩, ⟨"9.0.0-beta.1", none, none⟩]⟩

/-- The catalog of the claim's end-to-end scenario: one board `feather_s2`. -/
def featherDemo : List (String × BoardDef) :=
  [("feather_s2", featherBoard)]

/-! ### `base_installer.js`: the Flow Engine (lines 366–402) -/

/-- A `nextStep()`/`prevStep()` call issued against the engine. -/
inductive FlowCall where
  | next
  | prev
deriving DecidableEq

/-- JS `nextStep()` (base_installer.js lines 382–391) on a flow of `n` steps:
if `currentStep < steps.length`, increment the cursor and invoke the step
at the new cursor. Returns the new cursor and the index of the attempted
`steps[currentStep]` invocation (`none` when the guard fails). -/
def nextStep (n cursor : Nat) : Nat × Option Nat :=
  if cursor < n then (cursor + 1, some (cursor + 1)) else (cursor, none)

/-- JS `prevStep()` (base_installer.js lines 393–402): if `currentStep > 0`,
decrement the cursor and invoke the step at the new cursor. -/
def prevStep (cursor : Nat) : Nat × Option Nat :=
  if 0 < cursor then (cursor - 1, some (cursor - 1)) else (cursor, none)

/-- One engine call. -/
def stepCall (n cursor : Nat) : FlowCall → Nat × Option Nat
  | .next => nextStep n cursor
  | .prev => prevStep cursor

/-- JS `runFlow(flow)` (lines 366–380) sets the cursor to `0` and invokes
`steps[0]`; the subsequent calls then run. The result is the final cursor
together with every index at which `steps[index]` was accessed for
invocation, in order. -/
def runFlowTrace (n : Nat) (calls : List FlowCall) : Nat × List Nat :=
  calls.foldl
    (fun st c =>
      let r := stepCall n st.1 c
      (r.1, st.2 ++ r.2.toList))
    (0, [0])

/-- The indices at which the engine attempted a step invocation. -/
def runFlowAttempts (n : Nat) (calls : List FlowCall) : List Nat :=
  (runFlowTrace n calls).2

/-! ### `base_installer.js`: baud rate and connection state -/

/-- JS `this.baudRates` (base_installer.js lines 95–104). -/
def baudRates : List Nat :=
  [115200, 128000, 153600, 230400, 460800, 921600, 1500000, 2000000]

/-- The fields of the installer read and written by `changeBaudRate`:
the stored rate and whether `this.transport` is non-null (connected). -/
structure EspState where
  baudRate : Nat
  transport : Bool
deriving DecidableEq

/-- JS `changeBaudRate(baud)` (base_installer.js lines 436–444): inside the
`baudRates.includes(baud)` guard, a null transport stores the new rate and
a non-null transport shows the error message `"Cannot change baud rate
while connected."`; outside the guard nothing happens. Returns the new
state and whether `errorMsg` ran. The function never throws. -/
def changeBaudRate (st : EspState) (baud : Nat) : EspState × Bool :=
  if baudRates.contains baud then
    if st.transport then (st, true)
    else ({ st with baudRate := baud }, false)
  else (st, false)

/-- JS `Object.values(this.connectionStates)` (base_installer.js lines 60–64),
in insertion order: DISCONNECTED, CONNECTING, CONNECTED. -/
def connectionStates : List String :=
  ["Connect", "Connecting...", "Disconnect"]

/-- JS `updateEspConnected(connected)` (base_installer.js lines 336–341):
assigns `this.connected` only when the argument is one of the three
`connectionStates` values, otherwise leaves it unchanged. -/
def updateEspConnected (connected arg : String) : String :=
  if connectionStates.contains arg then arg else connected

/-! ### `cpinstaller.js`: the file cache and `downloadAndExtract` -/

/-- Opaque blob of downloaded bytes. -/
structure Blob where
  data : List Nat
deriving DecidableEq

/-- A cache entry as pushed by `addCachedFile` (cpinstaller.js lines
963–968): a JS object with exactly the properties `filename` and `blob`
(the blob is whatever `downloadFile` returned, possibly null). -/
structure CacheEntry where
  filename : String
  blob : Option Blob
deriving DecidableEq

/-- The property access `file.contents` performed by `getCachedFile`
(cpinstaller.js line 973). No code path ever assigns a `contents` property
to a cache entry — `addCachedFile` sets only `filename` and `blob` — so in
JS this access always evaluates to `undefined`. -/
def CacheEntry.contents (_ : CacheEntry) : Option Blob := none

/-- JS `addCachedFile(filename, blob)` (lines 963–968): pushes
`{filename, blob}` onto `this.fileCache`. -/
def addCachedFile (fileCache : List CacheEntry) (filename : String)
    (blob : Option Blob) : List CacheEntry :=
  fileCache ++ [⟨filename, blob⟩]

/-- JS `getCachedFile(filename)` (lines 970–977): scans the cache for the
first entry whose `filename` matches and returns its `contents` property;
returns null when no entry matches. The JS `undefined` (matched entry) and
`null` (no entry) are both `none`; both are falsy where the result is used. -/
def getCachedFile (fileCache : List CacheEntry) (filename : String) : Option Blob :=
  match fileCache.find? (fun file => file.filename == filename) with
  | some file => file.contents
  | none => none

/-- JS `url.split("/").pop()`: the final path segment of the URL. -/
def lastSegment (url : String) : String :=
  ⟨(url.data.reverse.takeWhile (fun c => c != '/')).reverse⟩

/-- JS `downloadAndExtract(url)` for a call without a zip member to extract
(`fileToExtract = null`, the shape of the claim's scenario, in which the
zip branch at lines 1043–1059 is skipped): consult the cache under the
URL's final segment; on a falsy result, download from the network (`net`
is the fetch oracle; `none` is a failed download) and, when `cacheFile`
is set, push the result into the cache. Returns the cache after the call,
the resulting file blob, and whether a network fetch was performed
(cpinstaller.js lines 1023–1062). -/
def downloadAndExtract (fileCache : List CacheEntry) (net : String → Option Blob)
    (url : String) (cacheFile : Bool) :
    List CacheEntry × Option Blob × Bool :=
  let filename := lastSegment url
  match getCachedFile fileCache filename with
  | some fileBlob => (fileCache, some fileBlob, false)
  | none =>
    let fileBlob := net url
    let fileCache' := if cacheFile then addCachedFile fileCache filename fileBlob
                      else fileCache
    (fileCache', fileBlob, true)

/-! ### `cpinstaller.js`: the `downloadAndCopy` write loop (lines 1144–1155) -/

/-- JS `COPY_CHUNK_SIZE` (cpinstaller.js line 26). -/
def COPY_CHUNK_SIZE : Nat := 64 * 1024

/-- The write loop of `downloadAndCopy`: while `bytesWritten < totalSize`,
slice `[bytesWritten, bytesWritten + COPY_CHUNK_SIZE)` out of the blob
(`Blob.slice` clamps the end to the blob size) and write it at absolute
offset `bytesWritten`, then advance by the chunk's size. Returns the
`(offset, size)` of every chunk written, in order. -/
def copyWritesAux (totalSize bytesWritten : Nat) : List (Nat × Nat) :=
  if bytesWritten < totalSize then
    (bytesWritten, min (bytesWritten + COPY_CHUNK_SIZE) totalSize - bytesWritten) ::
      copyWritesAux totalSize
        (bytesWritten + (min (bytesWritten + COPY_CHUNK_SIZE) totalSize - bytesWritten))
  else []
termination_by totalSize - bytesWritten
decreasing_by
  simp only [COPY_CHUNK_SIZE] at *
  omega

/-- The chunk writes performed by `downloadAndCopy` on a blob of
`totalSize` bytes (cpinstaller.js lines 1121–1159). -/
def downloadAndCopyWrites (totalSize : Nat) : List (Nat × Nat) :=
  copyWritesAux totalSize 0

/-! ### `cpinstaller.js`: `readFile`, drive picker, settings -/

/-- JS `readFile(filename, dirHandle)` (cpinstaller.js lines 924–942) against
a concrete directory handle, modelled as its name→contents file listing:
the file's text, or null when `getFileHandle` throws because the file is
absent. -/
def readFile (files : List (String × String)) (filename : String) : Option String :=
  (files.find? (fun f => f.1 == filename)).map (fun f => f.2)

/-- JS `getBootOut(dirHandle)` (lines 920–922). -/
def getBootOut (files : List (String × String)) : Option String :=
  readFile files "boot_out.txt"

/-- JS `circuitpyDriveSelectHandler(e)` (cpinstaller.js lines 680–702):
`picked = none` models a dialog the user cancelled (the catch-return);
a falsy `getBootOut` (file absent, or empty text) alerts and returns;
a failed permission check alerts and returns; otherwise the handler
stores the handle and calls `nextStep()`. Returns the value of
`this.circuitpyDriveHandle` after the call and whether `nextStep()` was
invoked (the only way the handler moves the flow cursor). -/
def circuitpyDriveSelectHandler (current : Option (List (String × String)))
    (picked : Option (List (String × String))) (perm : Bool) :
    Option (List (String × String)) × Bool :=
  match picked with
  | none => (current, false)
  | some dirHandle =>
    if jsFalsyOptStr (getBootOut dirHandle) then (current, false)
    else if !perm then (current, false)
    else (some dirHandle, true)

/-- The observable outcome of `getCurrentSettings()`: the returned mapping,
whether the `"Unable to read settings.toml …. Continuing …"` notice was
logged, and whether `errorMsg` ran. -/
structure SettingsResult where
  settings : List (String × String)
  loggedContinue : Bool
  errorShown : Bool
deriving DecidableEq

/-- JS `runCode(code)` (cpinstaller.js lines 1255–1267): joins the lines and
runs them through the REPL, logging the output — but the function has no
return statement, so a call always evaluates to `undefined`. -/
def runCode (code : List String) : Option String := none

/-- The tail of `getCurrentSettings` (lines 1323–1327): a truthy
`fileContents` is parsed with `toml.parse`; a falsy one (null, undefined
or empty text) logs the continuation notice and yields `{}`. -/
def finishSettings (parse : String → List (String × String))
    (fileContents : Option String) : SettingsResult :=
  match fileContents with
  | some s => if s == "" then ⟨[], true, false⟩ else ⟨parse s, false, false⟩
  | none => ⟨[], true, false⟩

/-- JS `getCurrentSettings()` (cpinstaller.js lines 1312–1328): on an active
REPL, capture the settings file by running a small script; otherwise read
`settings.toml` from the granted drive handle; with neither, show an error
and return `{}`. `parse` is the `toml.parse` collaborator. -/
def getCurrentSettings (parse : String → List (String × String)) (repl : Bool)
    (drive : Option (List (String × String))) : SettingsResult :=
  if repl then
    finishSettings parse
      (runCode ["f = open('settings.toml', 'r')", "print(f.read())", "f.close()"])
  else
    match drive with
    | some files => finishSettings parse (readFile files "settings.toml")
    | none => ⟨[], false, true⟩

/-! ### `cpinstaller.js`: `hasNativeUsb` (lines 1391–1398) and the flows -/

/-- JS `hasNativeUsb()` (cpinstaller.js lines 1391–1398): the test is
`!this.chipFamily || ("esp32", "esp32c3").includes(this.chipFamily)`.
`("esp32", "esp32c3")` is a comma expression evaluating to the string
`"esp32c3"`, so `.includes` is `String.prototype.includes` — a substring
test against `"esp32c3"` — not an array membership test. -/
def hasNativeUsb : Option String → Bool
  | none => false
  | some chipFamily =>
    if chipFamily == "" || jsIncludes (commaExpr "esp32" "esp32c3") chipFamily
    then false
    else true

/-- The seven flow identifiers (cpinstaller.js lines 201–237). -/
inductive FlowId where
  | uf2FullProgram
  | binFullProgram
  | uf2Only
  | binOnly
  | bootloaderOnly
  | credentialsOnlyRepl
  | credentialsOnlyDrive
deriving DecidableEq

/-- The `isEnabled` predicates of the flows (cpinstaller.js lines 201–237);
the three URL parameters are the truthiness of `this.bootloaderUrl`,
`this.uf2FileUrl` and `this.binFileUrl`. -/
def flowIsEnabled (chipFamily : Option String)
    (bootloaderUrl uf2FileUrl binFileUrl : Bool) : FlowId → Bool
  | .uf2FullProgram => hasNativeUsb chipFamily && bootloaderUrl && uf2FileUrl
  | .binFullProgram => !hasNativeUsb chipFamily && binFileUrl
  | .uf2Only => hasNativeUsb chipFamily && uf2FileUrl
  | .binOnly => binFileUrl
  | .bootloaderOnly => hasNativeUsb chipFamily && bootloaderUrl
  | .credentialsOnlyRepl => !hasNativeUsb chipFamily
  | .credentialsOnlyDrive => hasNativeUsb chipFamily

/-- The same predicate table with the `hasNativeUsb()` result abstracted
to a Bool, used to express dependence on that value. -/
def flowEnabledCore (nativeUsb bootloaderUrl uf2FileUrl binFileUrl : Bool) :
    FlowId → Bool
  | .uf2FullProgram => nativeUsb && bootloaderUrl && uf2FileUrl
  | .binFullProgram => !nativeUsb && binFileUrl
  | .uf2Only => nativeUsb && uf2FileUrl
  | .binOnly => binFileUrl
  | .bootloaderOnly => nativeUsb && bootloaderUrl
  | .credentialsOnlyRepl => !nativeUsb
  | .credentialsOnlyDrive => nativeUsb

/-- A flow's enablement depends on the `hasNativeUsb()` value when flipping
that value (for some fixed URL truthiness) changes the predicate. -/
def dependsOnNativeUsb (fid : FlowId) : Bool :=
  decide (∃ b u w : Bool, flowEnabledCore true b u w fid ≠ flowEnabledCore false b u w fid)

/-! ### Characterization of `jsIncludes` -/

theorem listStartsWith_iff : ∀ {p h : List Char},
    listStartsWith p h = true ↔ ∃ t, h = p ++ t
  | [], h => by simp [listStartsWith]
  | a :: as, [] => by simp [listStartsWith]
  | a :: as, b :: bs => by
    simp only [listStartsWith, Bool.and_eq_true, beq_iff_eq]
    constructor
    · rintro ⟨rfl, htail⟩
      obtain ⟨t, rfl⟩ := listStartsWith_iff.mp htail
      exact ⟨t, rfl⟩
    · rintro ⟨t, ht⟩
      rw [List.cons_append] at ht
      cases ht
      exact ⟨rfl, listStartsWith_iff.mpr ⟨t, rfl⟩⟩

theorem listContains_iff : ∀ {p h : List Char},
    listContains p h = true ↔ ∃ pre post, h = pre ++ p ++ post
  | p, [] => by
    simp only [listContains, listStartsWith_iff]
    constructor
    · rintro ⟨t, ht⟩
      exact ⟨[], t, by simpa using ht⟩
    · rintro ⟨pre, post, hp⟩
      have h1 : pre = [] ∧ p ++ post = [] := by
        have := hp.symm
        rw [List.append_assoc] at this
        exact List.append_eq_nil.mp this
      have h2 := List.append_eq_nil.mp h1.2
      exact ⟨[], by simp [h2.1]⟩
  | p, c :: t => by
    simp only [listContains, Bool.or_eq_true, listStartsWith_iff]
    constructor
    · rintro (⟨u, hu⟩ | hrec)
      · exact ⟨[], u, by simpa using hu⟩
      · obtain ⟨pre, post, rfl⟩ := listContains_iff.mp hrec
        exact ⟨c :: pre, post, by simp⟩
    · rintro ⟨pre, post, hp⟩
      match pre, hp with
      | [], hp =>
        exact Or.inl ⟨post, by simpa using hp⟩
      | d :: pre', hp =>
        simp only [List.cons_append, List.cons.injEq] at hp
        exact Or.inr (listContains_iff.mpr ⟨pre', post, hp.2⟩)

/-! ### Spec of the `downloadAndCopy` write loop -/

theorem copyWritesAux_spec : ∀ (fuel totalSize bytesWritten : Nat),
    totalSize - bytesWritten ≤ fuel → bytesWritten ≤ totalSize →
    (((copyWritesAux totalSize bytesWritten).map Prod.snd).sum
        = totalSize - bytesWritten)
    ∧ ((copyWritesAux totalSize bytesWritten).all
        (fun c => decide (0 < c.2) && decide (c.2 ≤ COPY_CHUNK_SIZE)) = true)
    ∧ (copyWritesAux totalSize bytesWritten).Chain' (fun a b => a.1 + a.2 = b.1)
    ∧ (((copyWritesAux totalSize bytesWritten).head?.getD (bytesWritten, 0)).1
        = bytesWritten)
  | fuel, totalSize, bytesWritten, hfuel, hle => by
    by_cases h : bytesWritten < totalSize
    · match fuel with
      | 0 => omega
      | fuel + 1 =>
        rw [copyWritesAux, if_pos h]
        set size := min (bytesWritten + COPY_CHUNK_SIZE) totalSize - bytesWritten with hsize
        have hsz : 0 < size := by rw [hsize]; simp only [COPY_CHUNK_SIZE]; omega
        have hsz' : size ≤ COPY_CHUNK_SIZE := by
          rw [hsize]; simp only [COPY_CHUNK_SIZE]; omega
        have hfin : bytesWritten + size ≤ totalSize := by
          rw [hsize]; simp only [COPY_CHUNK_SIZE]; omega
        have hfuel' : totalSize - (bytesWritten + size) ≤ fuel := by omega
        have hrec := copyWritesAux_spec fuel totalSize (bytesWritten + size) hfuel' hfin
        refine ⟨?_, ?_, ?_, ?_⟩
        · simp only [List.map_cons, List.sum_cons, hrec.1]
          omega
        · simp only [List.all_cons, hrec.2.1, Bool.and_true,
            Bool.and_eq_true, decide_eq_true_eq]
          exact ⟨hsz, hsz'⟩
        · rcases hrec.2.2 with ⟨hchain, hhead⟩
          cases hrest : copyWritesAux totalSize (bytesWritten + size) with
          | nil => simp [hrest]
          | cons w ws =>
            rw [hrest] at hchain hhead
            refine List.chain'_cons.mpr ⟨?_, hchain⟩
            simpa using hhead.symm
        · simp
    · rw [copyWritesAux, if_neg h]
      simp
      omega

/-! ### Invariant of the Flow Engine cursor -/

theorem runFlowTrace_invariant (n : Nat) : ∀ (calls : List FlowCall)
    (cursor : Nat) (acc : List Nat), cursor ≤ n → (∀ i ∈ acc, i ≤ n) →
    (calls.foldl
      (fun st c =>
        let r := stepCall n st.1 c
        (r.1, st.2 ++ r.2.toList)) (cursor, acc)).1 ≤ n
    ∧ ∀ i ∈ (calls.foldl
      (fun st c =>
        let r := stepCall n st.1 c
        (r.1, st.2 ++ r.2.toList)) (cursor, acc)).2, i ≤ n
  | [], cursor, acc, hc, ha => ⟨hc, ha⟩
  | c :: calls, cursor, acc, hc, ha => by
    have hstep : (stepCall n cursor c).1 ≤ n
        ∧ ∀ i ∈ (stepCall n cursor c).2.toList, i ≤ n := by
      cases c with
      | next =>
        by_cases h : cursor < n
        · simp [stepCall, nextStep, h]
          omega
        · simp [stepCall, nextStep, h]
          omega
      | prev =>
        by_cases h : 0 < cursor
        · simp [stepCall, prevStep, h]
          omega
        · simp [stepCall, prevStep, h]
          omega
    exact runFlowTrace_invariant n calls (stepCall n cursor c).1
      (acc ++ (stepCall n cursor c).2.toList) hstep.1
      (by
        intro i hi
        rcases List.mem_append.mp hi with h' | h'
        · exact ha i h'
        · exact hstep.2 i h')

/-! ### Claim theorems -/

/-- C1 counterexample: on a one-step flow, `runFlow` attempts `steps[0]` and a
single `nextStep()` — whose guard `0 < 1` passes — increments the cursor to
`1` and attempts `steps[1]`, an index equal to `steps.length` and so outside
`[0, steps.length)`. The claim that every invocation index is `< steps.length`
is therefore false. -/
theorem flow_engine_attempts_counterexample :
    runFlowAttempts 1 [FlowCall.next] = [0, 1]
    ∧ ¬ (∀ i ∈ runFlowAttempts 1 [FlowCall.next], i < 1) := by decide

/-- C1 (amended): starting from `runFlow` (cursor `0`, invoking `steps[0]`),
under any sequence of `nextStep()`/`prevStep()` calls every attempted step
invocation occurs at an index in `[0, steps.length]`; the upper endpoint
`steps.length` — where no step function exists, so the JS access throws —
is reachable by one `nextStep()` from the final step, and every other
attempt is inside `[0, steps.length)`. -/
theorem flow_engine_attempts_bounded (n : Nat) (calls : List FlowCall) :
    ∀ i ∈ runFlowAttempts n calls, i ≤ n := by
  have h := runFlowTrace_invariant n calls 0 [0] (Nat.zero_le n)
    (by intro i hi; simp at hi; omega)
  exact h.2

/-- C1 witness: a two-step flow with one `nextStep()` attempts index `1 ≤ 2`. -/
theorem flow_engine_attempts_bounded_witness :
    1 ∈ runFlowAttempts 2 [FlowCall.next] ∧ 1 ≤ 2 :=
  ⟨by decide, flow_engine_attempts_bounded 2 [FlowCall.next] 1 (by decide)⟩

/-- C4: for every blob size — zero, smaller than a chunk, or an exact
multiple of a chunk — the `downloadAndCopy` write loop emits chunks whose
sizes sum to exactly `totalSize`, each chunk positive and at most 64 KiB,
each written at the absolute offset equal to the bytes written so far
(the first at offset 0, each next at the previous offset plus its size),
so offsets are strictly increasing and no two chunks overlap. -/
theorem downloadAndCopy_writes_spec (totalSize : Nat) :
    (((downloadAndCopyWrites totalSize).map Prod.snd).sum = totalSize)
    ∧ ((downloadAndCopyWrites totalSize).all
        (fun c => decide (0 < c.2) && decide (c.2 ≤ COPY_CHUNK_SIZE)) = true)
    ∧ (downloadAndCopyWrites totalSize).Chain' (fun a b => a.1 + a.2 = b.1)
    ∧ (((downloadAndCopyWrites totalSize).head?.getD (0, 0)).1 = 0)
    ∧ (downloadAndCopyWrites totalSize).Pairwise (fun a b => a.1 + a.2 ≤ b.1) := by
  have h := copyWritesAux_spec totalSize totalSize 0 (by omega) (by omega)
  have hchain : (downloadAndCopyWrites totalSize).Chain' (fun a b => a.1 + a.2 ≤ b.1) :=
    List.Chain'.imp (fun a b hab => le_of_eq hab) h.2.2.1
  haveI : IsTrans (Nat × Nat) (fun a b => a.1 + a.2 ≤ b.1) :=
    ⟨fun a b c h1 h2 => by omega⟩
  exact ⟨by simpa using h.1, h.2.1, h.2.2.1, h.2.2.2, List.chain'_iff_pairwise.mp hchain⟩

/-- C6 counterexample: with a connected transport, requesting the baud value
9600 — not a member of `baudRates` — produces no user-visible error message
(the function silently does nothing), refuting the claim that every
requested value is rejected with an error while connected. -/
theorem changeBaudRate_counterexample :
    (⟨115200, true⟩ : EspState).transport = true
    ∧ (changeBaudRate ⟨115200, true⟩ 9600).2 = false
    ∧ (changeBaudRate ⟨115200, true⟩ 9600).1 = ⟨115200, true⟩ := by decide

/-- C6 (amended): while a transport is connected, `changeBaudRate` never
throws and leaves the whole state (in particular the stored `baudRate`)
unchanged, and it shows the user-visible error message exactly when the
requested value is one of the supported `baudRates` (unsupported values are
ignored silently); moreover the stored `baudRate` is only ever changed
while disconnected (`transport` null). -/
theorem changeBaudRate_spec (st st' : EspState) (baud baud' : Nat)
    (hconn : st.transport = true) :
    ((changeBaudRate st baud).1 = st
      ∧ ((changeBaudRate st baud).2 = true ↔ baud ∈ baudRates))
    ∧ ((changeBaudRate st' baud').1.baudRate ≠ st'.baudRate → st'.transport = false) := by
  refine ⟨⟨?_, ?_⟩, ?_⟩
  · by_cases h : baud ∈ baudRates
    · simp [changeBaudRate, h, hconn]
    · simp [changeBaudRate, h]
  · by_cases h : baud ∈ baudRates
    · simp [changeBaudRate, h, hconn]
    · simp [changeBaudRate, h]
  · intro hne
    rcases Bool.eq_false_or_eq_true st'.transport with h | h
    · exfalso
      apply hne
      by_cases hb : baud' ∈ baudRates <;> simp [changeBaudRate, hb, h]
    · exact h

/-- C6 witness: while connected, a supported baud (921600) is rejected with
the error and the state kept; and a disconnected state is the only one in
which the stored rate can change. -/
theorem changeBaudRate_spec_witness :
    (⟨115200, true⟩ : EspState).transport = true
    ∧ (((changeBaudRate ⟨115200, true⟩ 921600).1 = (⟨115200, true⟩ : EspState)
        ∧ ((changeBaudRate ⟨115200, true⟩ 921600).2 = true ↔ 921600 ∈ baudRates))
      ∧ ((changeBaudRate ⟨115200, false⟩ 9600).1.baudRate
            ≠ (⟨115200, false⟩ : EspState).baudRate
          → (⟨115200, false⟩ : EspState).transport = false)) :=
  ⟨rfl, changeBaudRate_spec ⟨115200, true⟩ ⟨115200, false⟩ 921600 9600 rfl⟩

/-- C9: `updateEspConnected` assigns its argument exactly when it is one of
the three `connectionStates` values and leaves the state unchanged
otherwise; consequently, starting from the initial value (DISCONNECTED,
which is one of the three), the `connected` field only ever holds one of
the three enum values. -/
theorem updateEspConnected_spec (cur arg : String) (h : cur ∈ connectionStates) :
    updateEspConnected cur arg ∈ connectionStates
    ∧ (arg ∈ connectionStates → updateEspConnected cur arg = arg)
    ∧ (arg ∉ connectionStates → updateEspConnected cur arg = cur)
    ∧ "Connect" ∈ connectionStates := by
  by_cases harg : arg ∈ connectionStates
  · exact ⟨by simp [updateEspConnected, harg],
      fun _ => by simp [updateEspConnected, harg],
      fun hn => absurd harg hn, by decide⟩
  · exact ⟨by simp [updateEspConnected, harg, h],
      fun hm => absurd hm harg,
      fun _ => by simp [updateEspConnected, harg], by decide⟩

/-- C9 witness: from the CONNECTING value, a valid argument is assigned and
an invalid one ignored. -/
theorem updateEspConnected_spec_witness :
    "Connecting..." ∈ connectionStates
    ∧ (updateEspConnected "Connecting..." "Disconnect" ∈ connectionStates
      ∧ ("Disconnect" ∈ connectionStates
          → updateEspConnected "Connecting..." "Disconnect" = "Disconnect")
      ∧ ("Disconnect" ∉ connectionStates
          → updateEspConnected "Connecting..." "Disconnect" = "Connecting...")
      ∧ "Connect" ∈ connectionStates) :=
  ⟨by decide, updateEspConnected_spec "Connecting..." "Disconnect" (by decide)⟩

/-- C3: the cache can never serve a hit. `addCachedFile` stores the blob in
the `blob` property but `getCachedFile` returns the never-assigned
`contents` property; at the failing input — a cache holding exactly
`{filename: "firmware.uf2", blob}` and a request whose URL ends in
`firmware.uf2` — `getCachedFile` yields `undefined`, so `downloadAndExtract`
performs the network fetch and returns the downloaded blob, not the cached
one, contradicting the claim (and the code's own evident intent). -/
theorem downloadAndExtract_cache_never_hits :
    getCachedFile (addCachedFile [] "firmware.uf2" (some ⟨[1, 2, 3]⟩)) "firmware.uf2" = none
    ∧ downloadAndExtract (addCachedFile [] "firmware.uf2" (some ⟨[1, 2, 3]⟩))
        (fun _ => some ⟨[9, 9]⟩) "https://example.com/firmware.uf2" false
      = (addCachedFile [] "firmware.uf2" (some ⟨[1, 2, 3]⟩), some ⟨[9, 9]⟩, true) := by
  decide

/-- C7: when the settings file is absent — the drive listing has no
`settings.toml` entry, and on the REPL path `runCode` yields no contents —
`getCurrentSettings` shows no error, logs the continuation notice, and
returns the empty mapping, on both paths. -/
theorem getCurrentSettings_absent (parse : String → List (String × String))
    (files : List (String × String)) (drive : Option (List (String × String)))
    (habsent : files.all (fun f => f.1 != "settings.toml") = true) :
    getCurrentSettings parse false (some files) = ⟨[], true, false⟩
    ∧ getCurrentSettings parse true drive = ⟨[], true, false⟩ := by
  constructor
  · have hnone : readFile files "settings.toml" = none := by
      unfold readFile
      rw [List.find?_eq_none.mpr ?_]
      · rfl
      · intro x hx
        have hne := List.all_eq_true.mp habsent x hx
        simpa using hne
    simp [getCurrentSettings, hnone, finishSettings]
  · simp [getCurrentSettings, runCode, finishSettings]

/-- C7 witness: a drive holding only `code.py` yields the empty mapping with
the continuation notice and no error, on both paths. -/
theorem getCurrentSettings_absent_witness :
    ([("code.py", "pass")].all (fun f => f.1 != "settings.toml") = true)
    ∧ (getCurrentSettings (fun _ => []) false (some [("code.py", "pass")])
          = ⟨[], true, false⟩
      ∧ getCurrentSettings (fun _ => []) true none = ⟨[], true, false⟩) :=
  ⟨by decide, getCurrentSettings_absent (fun _ => []) [("code.py", "pass")] none (by decide)⟩

/-- C8: selecting a directory that lacks the marker file `boot_out.txt` in
the CIRCUITPY-drive picker step is rejected: the handler returns with
`circuitpyDriveHandle` unchanged and without invoking `nextStep()`, so the
flow cursor does not advance. -/
theorem circuitpyDriveSelectHandler_rejects
    (current : Option (List (String × String)))
    (dir : List (String × String)) (perm : Bool)
    (hlack : dir.all (fun f => f.1 != "boot_out.txt") = true) :
    circuitpyDriveSelectHandler current (some dir) perm = (current, false) := by
  have hnone : getBootOut dir = none := by
    unfold getBootOut readFile
    rw [List.find?_eq_none.mpr ?_]
    · rfl
    · intro x hx
      have hne := List.all_eq_true.mp hlack x hx
      simpa using hne
  simp [circuitpyDriveSelectHandler, hnone, jsFalsyOptStr]

/-- C8 witness: a directory holding only `main.py` is rejected with the
handle and cursor untouched. -/
theorem circuitpyDriveSelectHandler_rejects_witness :
    ([("main.py", "pass")].all (fun f => f.1 != "boot_out.txt") = true)
    ∧ circuitpyDriveSelectHandler none (some [("main.py", "pass")]) true = (none, false) :=
  ⟨by decide, circuitpyDriveSelectHandler_rejects none [("main.py", "pass")] true (by decide)⟩

/-- C2 counterexample: `parseVersion` keeps the captured fields as strings
and the comparator uses the JS `<`/`>` on them, which for two digit strings
is lexicographic, so `"9" > "10"` and `sortReleases` places `10.0.0` before
`9.0.0` — not non-decreasing under the claim's numeric field-tuple order. -/
theorem sortReleases_counterexample :
    sortReleases [⟨"9.0.0", none, none⟩, ⟨"10.0.0", none, none⟩]
      = [⟨"10.0.0", none, none⟩, ⟨"9.0.0", none, none⟩]
    ∧ specSorted (sortReleases [⟨"9.0.0", none, none⟩, ⟨"10.0.0", none, none⟩]) = false := by
  decide

/-- C2 (amended): for every release list whose versions match the pattern
with a well-behaved `suffixVersion` (the implicit number 0 or a canonical
numeral — in particular every canonically rendered
`major.minor.patch[-suffix.suffixVersion]` string), `sortReleases` returns
a permutation of the list that is non-decreasing under the comparator's
order — field-by-field over `(major, minor, patch, suffix, suffixVersion)`,
first mismatch deciding, but with the fields compared as JS strings
(lexicographically by character), a version without a suffix ordered as
suffix `"stable"` with `suffixVersion` the number `0` — and equal-key
elements keep their original catalog order. -/
theorem sortReleases_spec (l : List Release) (hwf : l.all releaseWF = true) :
    (sortReleases l).Perm l
    ∧ (sortReleases l).Pairwise (fun a b => releaseLe a b = true)
    ∧ ∀ a b : Release, [a, b].Sublist l → releaseCompare a b = 0 →
        [a, b].Sublist (sortReleases l) := by
  refine ⟨stableSort_perm _ l, ?_, ?_⟩
  · exact stableSort_sorted releaseLe (fun r => releaseWF r = true)
      (fun a b _ _ => releaseLe_total a b)
      (fun a b c ha hb hc => releaseLe_trans_wf ha hb hc)
      (List.all_eq_true.mp hwf)
  · intro a b hsub hcmp
    have hle : releaseLe a b = true := by simp [releaseLe, hcmp]
    exact sublist_stableSort (List.pairwise_pair.mpr hle) hsub

/-- C2 witness: a two-release list (a beta and its stable) is well-formed
and the sorted result is a sorted, stable permutation. -/
theorem sortReleases_spec_witness :
    ([(⟨"1.0.0-beta.2", none, none⟩ : Release), ⟨"1.0.0", none, none⟩].all releaseWF = true)
    ∧ ((sortReleases [⟨"1.0.0-beta.2", none, none⟩, ⟨"1.0.0", none, none⟩]).Perm
        [⟨"1.0.0-beta.2", none, none⟩, ⟨"1.0.0", none, none⟩]
      ∧ (sortReleases [⟨"1.0.0-beta.2", none, none⟩, ⟨"1.0.0", none, none⟩]).Pairwise
          (fun a b => releaseLe a b = true)
      ∧ ∀ a b : Release,
          [a, b].Sublist [⟨"1.0.0-beta.2", none, none⟩, ⟨"1.0.0", none, none⟩] →
          releaseCompare a b = 0 →
          [a, b].Sublist (sortReleases [⟨"1.0.0-beta.2", none, none⟩, ⟨"1.0.0", none, none⟩])) :=
  ⟨by decide, sortReleases_spec [⟨"1.0.0-beta.2", none, none⟩, ⟨"1.0.0", none, none⟩] (by decide)⟩

/-- C5: for a board present in the catalog — (i) when a version is requested
and a release with exactly that version string exists, `loadBoard` selects a
release with that exact version; (ii) with no requested version it
deterministically selects the first element of the version-sorted release
list when `DEFAULT_RELEASE_LATEST` is false and the last when true;
(iii) likewise when the requested version has no exact match; and (iv) in
the `feather_s2` scenario with releases `["8.2.0", "9.0.0-beta.1"]` and no
requested version, default-latest=false selects `"8.2.0"` and
default-latest=true selects `"9.0.0-beta.1"`. -/
theorem loadBoard_selection (boardDefs : List (String × BoardDef)) (boardId : String)
    (bd : BoardDef) (defaultLatest : Bool) (v : String)
    (hlook : boardDefs.lookup boardId = some bd) :
    ((∃ r ∈ bd.releases, r.version = v) →
      ∃ r, loadBoard boardDefs boardId (some v) defaultLatest = some r ∧ r.version = v)
    ∧ (loadBoard boardDefs boardId none defaultLatest
        = if defaultLatest then (sortReleases bd.releases).getLast?
          else (sortReleases bd.releases).head?)
    ∧ ((∀ r ∈ bd.releases, r.version ≠ v) →
      loadBoard boardDefs boardId (some v) defaultLatest
        = if defaultLatest then (sortReleases bd.releases).getLast?
          else (sortReleases bd.releases).head?)
    ∧ (loadBoard featherDemo "feather_s2" none false = some ⟨"8.2.0", none, none⟩
      ∧ loadBoard featherDemo "feather_s2" none true = some ⟨"9.0.0-beta.1", none, none⟩) := by
  refine ⟨?_, ?_, ?_, by decide⟩
  · rintro ⟨r, hr, hv⟩
    have hmem : r ∈ sortReleases bd.releases := ((stableSort_perm _ _).mem_iff).mpr hr
    have hsome : ((sortReleases bd.releases).find?
        (fun release => release.version == v)).isSome := by
      rw [List.find?_isSome]
      exact ⟨r, hmem, by simp [hv]⟩
    obtain ⟨r', hr'⟩ := Option.isSome_iff_exists.mp hsome
    refine ⟨r', ?_, ?_⟩
    · simp [loadBoard, hlook, hr']
    · have := List.find?_some hr'
      simpa using this
  · simp [loadBoard, hlook]
  · intro hno
    have hnone : (sortReleases bd.releases).find?
        (fun release => release.version == v) = none := by
      rw [List.find?_eq_none]
      intro x hx
      have hxmem : x ∈ bd.releases := ((stableSort_perm _ _).mem_iff).mp hx
      simp [hno x hxmem]
    simp [loadBoard, hlook, hnone]

/-- C5 witness: the scenario catalog with the version `"8.2.0"` requested. -/
theorem loadBoard_selection_witness :
    featherDemo.lookup "feather_s2" = some featherBoard
    ∧ (((∃ r ∈ featherBoard.releases, r.version = "8.2.0") →
        ∃ r, loadBoard featherDemo "feather_s2" (some "8.2.0") false = some r
          ∧ r.version = "8.2.0")
      ∧ (loadBoard featherDemo "feather_s2" none false
          = if false then (sortReleases featherBoard.releases).getLast?
            else (sortReleases featherBoard.releases).head?)
      ∧ ((∀ r ∈ featherBoard.releases, r.version ≠ "8.2.0") →
        loadBoard featherDemo "feather_s2" (some "8.2.0") false
          = if false then (sortReleases featherBoard.releases).getLast?
            else (sortReleases featherBoard.releases).head?)
      ∧ (loadBoard featherDemo "feather_s2" none false = some ⟨"8.2.0", none, none⟩
        ∧ loadBoard featherDemo "feather_s2" none true = some ⟨"9.0.0-beta.1", none, none⟩)) :=
  ⟨by decide, loadBoard_selection featherDemo "feather_s2" featherBoard false "8.2.0" (by decide)⟩

/-- C10 counterexample: the `binOnly` flow's `isEnabled` predicate is
`!!this.binFileUrl` alone; flipping the `hasNativeUsb()` value never
changes it, so not every installation flow's predicate depends on that
value. -/
theorem flows_dependence_counterexample :
    dependsOnNativeUsb FlowId.binOnly = false := by decide

/-- C10 (amended): `hasNativeUsb()` returns false exactly when `chipFamily`
is null/empty or is a contiguous substring of `"esp32c3"` (the comma
expression `("esp32", "esp32c3")` evaluates to `"esp32c3"` and `.includes`
is the string substring test), so it is false for `"esp32"`, `"esp32c3"`,
`"c3"`, `"32"` and true for `"esp32s2"`; the `isEnabled` predicates of the
flows factor through the `hasNativeUsb()` value, and every flow except
`binOnly` (whose predicate is the `binfile`-URL truthiness alone) depends
on that value. -/
theorem hasNativeUsb_spec :
    (∀ cf : Option String, hasNativeUsb cf = false ↔
      (cf = none ∨ cf = some "" ∨
        ∃ s pre post, cf = some s ∧ "esp32c3".data = pre ++ s.data ++ post))
    ∧ hasNativeUsb (some "esp32") = false
    ∧ hasNativeUsb (some "esp32c3") = false
    ∧ hasNativeUsb (some "c3") = false
    ∧ hasNativeUsb (some "32") = false
    ∧ hasNativeUsb (some "esp32s2") = true
    ∧ (∀ cf b u w fid, flowIsEnabled cf b u w fid
        = flowEnabledCore (hasNativeUsb cf) b u w fid)
    ∧ dependsOnNativeUsb FlowId.uf2FullProgram = true
    ∧ dependsOnNativeUsb FlowId.binFullProgram = true
    ∧ dependsOnNativeUsb FlowId.uf2Only = true
    ∧ dependsOnNativeUsb FlowId.bootloaderOnly = true
    ∧ dependsOnNativeUsb FlowId.credentialsOnlyRepl = true
    ∧ dependsOnNativeUsb FlowId.credentialsOnlyDrive = true
    ∧ dependsOnNativeUsb FlowId.binOnly = false := by
  refine ⟨?_, by decide, by decide, by decide, by decide, by decide, ?_,
    by decide, by decide, by decide, by decide, by decide, by decide, by decide⟩
  · intro cf
    cases cf with
    | none => simp [hasNativeUsb]
    | some s =>
      by_cases hs : s = ""
      · subst hs
        simp [hasNativeUsb]
      · constructor
        · intro h
          refine Or.inr (Or.inr ⟨s, ?_⟩)
          have hinc : jsIncludes (commaExpr "esp32" "esp32c3") s = true := by
            by_contra hni
            have hse : (s == "") = false := by simp [hs]
            simp [hasNativeUsb, hse, bool_eq_false hni] at h
          obtain ⟨pre, post, hdec⟩ := listContains_iff.mp hinc
          exact ⟨pre, post, rfl, hdec⟩
        · rintro (h | h | ⟨s', pre, post, heq, hdec⟩)
          · exact absurd h (by simp)
          · rw [Option.some.injEq] at h
            exact absurd h hs
          · rw [Option.some.injEq] at heq
            subst heq
            have hinc : jsIncludes (commaExpr "esp32" "esp32c3") s = true :=
              listContains_iff.mpr ⟨pre, post, hdec⟩
            simp [hasNativeUsb, hinc]
  · intro cf b u w fid
    cases fid <;> rfl
